import Mathlib

/-
  Verification of the JASS impact-ordered inverted-index components against their
  specification.  The development shallowly embeds, over Nat / Int / Rat:

  * the SIMD Elias-gamma variable-byte codec
    (compress_integer_elias_gamma_simd_vb.cpp: compute_selector, encode, decode),
    modelled at the granularity of 32-bit little-endian words (the unit in which
    both the encoder and the decoder address the stream);
  * the in-memory postings accumulator (index_postings.h: push_back, text_render
    and the postings iterator);
  * the impact quantizer (quantize.h: pass A min/max tracking and the pass B
    impact formula), with IEEE doubles modelled as exact rationals and the
    division made explicit so that a zero divisor is visible;
  * the pointer_box comparator (pointer_box.h) over an integer array, with
    pointers modelled as indices into the array;
  * the dumper's printer sink (jassv1_to_human.cpp: set_score / push_back).

  Machine integers are Nat with explicit reductions modulo 2^32 / 2^16 where the
  source works in uint32_t / uint16_t.
-/

namespace JASS

/-- Modelled from the spec: `maths::ceiling_log2` (maths.h is not among the sources).
Spec section 4.5.1 defines the slice width as the number of bits needed to store the
group: `w = ceil(log2(max(values, 1)))`, with `w = 1` pinned for all-zero or all-one
groups.  The encoder only ever applies this to the bitwise OR of the group's values
together with 1 (an odd number); for an odd argument `x` the number of bits needed is
`Nat.log2 x + 1`, which agrees with the mathematical ceiling for every odd `x > 1`
and realises the pinned `w = 1` at `x = 1`. -/
def ceiling_log2 (x : Nat) : Nat :=
  Nat.log2 x + 1

/-- Modelled from the spec: `find_first_set_bit` (maths.h is not among the sources).
Spec section 4.5.1 step 2 of decoding: the 1-based index of the lowest set bit of the
selector.  Returns 0 on 0; the decoder only calls it on a non-zero selector. -/
def find_first_set_bit (x : Nat) : Nat :=
  if h0 : x = 0 then 0
  else if x % 2 = 1 then 1
  else find_first_set_bit (x / 2) + 1
termination_by x
decreasing_by exact Nat.div_lt_self (Nat.pos_of_ne_zero h0) (by decide)

/-- Translation of `compress_integer_elias_gamma_simd_vb::compute_selector`
(compress_integer_elias_gamma_simd_vb.cpp lines 165-185).  The C++ function receives
the slice-width array terminated by a 0 entry and scans for the terminator; here the
argument is the list of widths in front of the terminator.  Iterating from the last
width down to the first it performs, on a `uint32_t` accumulator,
`value <<= e; value |= 1 << (e - 1)`. -/
def compute_selector (encodings : List Nat) : Nat :=
  encodings.foldr (fun e value => ((value <<< e) ||| (1 <<< (e - 1))) % 2 ^ 32) 0

/-- The per-slice width computation of `encode` (lines 231-235): `max_width` starts at 1,
ORs in the next up-to-16 input values (absent lanes contribute 1, absorbed by the
initial 1), and is passed through `maths::ceiling_log2`. -/
def slice_width (array : List Nat) : Nat :=
  ceiling_log2 ((array.take 16).foldl (fun a b => a ||| b) 1)

/-- The 16-lane view of the next group of inputs: lane `word` holds `array[word]` when
`word < elements` and 0 otherwise (`encode`, line 245). -/
def chunk16 (array : List Nat) : List Nat :=
  array.take 16 ++ List.replicate (16 - array.length) 0

/-- One packing step of `encode` (lines 243-247): each of the 16 payload words receives
`value << cumulative_shift` (a `uint32_t` shift, hence the reduction mod `2 ^ 32`)
ORed into it. -/
def pack_slice (group : List Nat) (shift : Nat) (payload : List Nat) : List Nat :=
  List.zipWith (fun p v => p ||| ((v <<< shift) % 2 ^ 32)) payload group

/-- The slice loop of `encode` (lines 226-272) for one frame.  State: the remaining
input, the free bits `remaining` of the 32-bit lanes, the `cumulative_shift`, and the
16 payload words accumulated so far.  Returns the frame's slice-width list (as passed
to `compute_selector`, i.e. with the spare `remaining` bits folded into the last
width — lines 257 and 271), the final payload words, the unconsumed input, and
whether the input was exhausted (the `return` at line 261).

The C++ loop records widths into the `encodings` array; the returned list is that
array's contents up to the 0 terminator.  When the recursive call reports that no
further slice fitted (first component `[]`), this slice is the last of the frame and
its recorded width is `w + (remaining - w) = remaining`, matching
`encodings[slice - 1] += remaining` executed with the callee's remaining
`remaining - w`; the exhaustion case at line 257 likewise records
`w + (remaining - w) = remaining`. -/
def encode_slices (array : List Nat) (remaining shift : Nat) (payload : List Nat) :
    List Nat × List Nat × List Nat × Bool :=
  let w := slice_width array
  if hw : w ≤ remaining then
    let packed := pack_slice (chunk16 array) shift payload
    if array.length ≤ 16 then
      ([remaining], packed, [], true)
    else
      match encode_slices (array.drop 16) (remaining - w) (shift + w) packed with
      | ([], p2, rest, fin) => ([remaining], p2, rest, fin)
      | (w2 :: ws2, p2, rest, fin) => (w :: w2 :: ws2, p2, rest, fin)
  else
    ([], payload, array, false)
termination_by remaining
decreasing_by
  have h1 : 1 ≤ slice_width array := Nat.succ_le_succ (Nat.zero_le _)
  omega

/-- The frame loop of `encode` (lines 197-276), with the output-capacity check removed:
the sequence of 32-bit words `encode` writes when the destination buffer is adequate.
Every frame is one selector word followed by the 16 payload words.  The final `else`
branch is unreachable for genuine `uint32_t` input (each value `< 2 ^ 32`): it is
taken only when a slice width exceeds 32, in which case the C++ loop never
terminates (it would index `encodings[-1]`). -/
def encode_frames (array : List Nat) : List Nat :=
  match encode_slices array 32 0 (List.replicate 16 0) with
  | (ws, payload, rest, fin) =>
    let frame := compute_selector ws :: payload
    if fin then frame
    else if h : rest.length < array.length then frame ++ encode_frames rest
    else frame
termination_by array.length
decreasing_by exact h

/-- The return value of `encode` (lines 191-279) including the capacity check at line
202: before each frame the encoder requires room for `WORDS + 1 + 1 = 18` words
(72 bytes) beyond the `4 * written` bytes already written, returning 0 otherwise;
on success it returns the bytes written, 68 per frame.  The final `else` branch is
unreachable for `uint32_t` input, as in `encode_frames`. -/
def encode_loop (encoded_buffer_length : Nat) (array : List Nat) (written : Nat) : Nat :=
  if 4 * written + 72 > encoded_buffer_length then 0
  else
    match encode_slices array 32 0 (List.replicate 16 0) with
    | (_, _, rest, fin) =>
      if fin then 4 * (written + 17)
      else if h : rest.length < array.length then
        encode_loop encoded_buffer_length rest (written + 17)
      else 4 * (written + 17)
termination_by array.length
decreasing_by exact h

/-- `encode`'s returned byte count: `bytes_written`, or 0 on overflow of the output
buffer (`encoded_buffer_length` in bytes). -/
def encode (encoded_buffer_length : Nat) (array : List Nat) : Nat :=
  encode_loop encoded_buffer_length array 0

/-- Row `width` of the `mask_set` table (lines 281-316): every lane of row `w`
holds the AND-mask `(1 << w) - 1` for `w`-bit integers. -/
def mask_set (width : Nat) : Nat :=
  2 ^ width - 1

/-- The slice loop of `decode` (lines 332-353) within one frame: while the selector is
non-zero, find the width `w` of the next slice, emit the 16 payload lanes ANDed with
`mask_set w`, shift every payload lane right by `w` (the SIMD 32-bit lane shift, which
yields 0 once `w` reaches 32), and shift the selector right by `w`. -/
def decode_slices (selector : Nat) (payload : List Nat) : List Nat :=
  if hs : selector = 0 then []
  else
    let width := find_first_set_bit selector
    payload.map (fun x => x &&& mask_set width)
      ++ decode_slices (selector >>> width) (payload.map (fun x => x >>> width))
termination_by selector
decreasing_by
  have h1 : find_first_set_bit selector ≠ 0 := by
    rw [find_first_set_bit]
    split
    · exact absurd (by assumption) hs
    · split
      · exact Nat.one_ne_zero
      · exact Nat.succ_ne_zero _
  calc selector >>> find_first_set_bit selector
      = selector / 2 ^ find_first_set_bit selector := Nat.shiftRight_eq_div_pow ..
    _ < selector :=
        Nat.div_lt_self (Nat.pos_of_ne_zero hs)
          (Nat.one_lt_two_pow h1)

/-- The frame loop of `decode` (lines 322-354): while source words remain, load one
selector word (a 32-bit load, hence the reduction mod `2 ^ 32`) and the following 16
payload words, and run the slice loop on them.  The third C++ argument
`integers_to_decode` is ignored by the source function, which decodes until the
source is exhausted. -/
def decode_frames (source : List Nat) : List Nat :=
  match source with
  | [] => []
  | selector :: rest =>
    decode_slices (selector % 2 ^ 32) (rest.take 16) ++ decode_frames (rest.drop 16)
termination_by source.length
decreasing_by
  simp only [List.length_drop, List.length_cons]
  omega

/-- The selector-width extraction inside `decode` (lines 344-352), projected onto the
selector word alone: iterated find-first-set-bit and right-shift until the selector
is exhausted. -/
def extract_widths (selector : Nat) : List Nat :=
  if hs : selector = 0 then []
  else
    let width := find_first_set_bit selector
    width :: extract_widths (selector >>> width)
termination_by selector
decreasing_by
  have h1 : find_first_set_bit selector ≠ 0 := by
    rw [find_first_set_bit]
    split
    · exact absurd (by assumption) hs
    · split
      · exact Nat.one_ne_zero
      · exact Nat.succ_ne_zero _
  calc selector >>> find_first_set_bit selector
      = selector / 2 ^ find_first_set_bit selector := Nat.shiftRight_eq_div_pow ..
    _ < selector :=
        Nat.div_lt_self (Nat.pos_of_ne_zero hs)
          (Nat.one_lt_two_pow h1)

/-- Proof-side recursive description of a packed frame: given (width, 16-lane group)
pairs, lane `i` of the packed payload is `g₁[i] + 2 ^ w₁ * (g₂[i] + 2 ^ w₂ * (...))`.
Not a translation of a source function; used to relate the encoder's iterative
OR-at-shift packing with the decoder's mask-and-shift unpacking. -/
def pack_pairs : List (Nat × List Nat) → List Nat
  | [] => List.replicate 16 0
  | (w, group) :: rest => List.zipWith (fun v p => v + p * 2 ^ w) group (pack_pairs rest)

/-- Proof-side: the successive 16-lane groups taken from the input, each zero-padded
to 16 lanes. -/
def chunks_of : Nat → List Nat → List (List Nat)
  | 0, _ => []
  | k + 1, array => chunk16 array :: chunks_of k (array.drop 16)

/-- Proof-side: lane-wise merge of already-written low bits with newly packed slices
placed at bit offset `shift`. -/
def merge_payload (shift : Nat) (payload q : List Nat) : List Nat :=
  List.zipWith (fun p v => p + v * 2 ^ shift) payload q

end JASS

namespace JASS

/-- The accumulator state of `index_postings` (index_postings.h lines 389-401):
`highest_document` / `highest_position` are `size_t`; the three arrays hold
`uint32_t` document ids, `uint16_t` term frequencies and `uint32_t` positions. -/
structure index_postings where
  highest_document : Nat
  highest_position : Nat
  document_ids : List Nat
  term_frequencies : List Nat
  positions : List Nat
deriving DecidableEq, Repr

/-- The freshly constructed accumulator (constructor, lines 547-557): both highwater
marks start at 0 (ids and positions count from 1) and the arrays are empty. -/
def index_postings.init : index_postings :=
  ⟨0, 0, [], [], []⟩

/-- Translation of `index_postings::push_back` (lines 593-619).  When `document_id`
equals `highest_document` the source bumps `term_frequencies.back()` while it is at
most 0xFFFE; `back()` on an empty array is undefined behaviour in the source and is
modelled by `none`.  Otherwise a new document id (stored as `uint32_t`) is appended
with term frequency 1.  A new position (stored as `uint32_t`) is always appended. -/
def index_postings.push_back (s : index_postings) (document_id position : Nat) :
    Option index_postings :=
  if document_id = s.highest_document then
    match s.term_frequencies.getLast? with
    | none => none
    | some frequency =>
      let bumped := if frequency ≤ 0xFFFE then frequency + 1 else frequency
      some { s with
              term_frequencies := s.term_frequencies.dropLast ++ [bumped],
              positions := s.positions ++ [position % 2 ^ 32],
              highest_position := position }
  else
    some { s with
            document_ids := s.document_ids ++ [document_id % 2 ^ 32],
            highest_document := document_id,
            term_frequencies := s.term_frequencies ++ [1],
            positions := s.positions ++ [position % 2 ^ 32],
            highest_position := position }

/-- `n` successive calls of `push_back` with the same document id and position. -/
def index_postings.push_repeat (s : index_postings) (document_id position : Nat) :
    Nat → Option index_postings
  | 0 => some s
  | n + 1 =>
    (index_postings.push_repeat s document_id position n).bind
      (fun t => index_postings.push_back t document_id position)

/-- The postings iterator (index_postings.h lines 418-522) run to completion: walks the
position array, yielding `(*document, *frequency, *position)` and advancing the
document / frequency iterators whenever `frequencies_remaining`, a `uint32_t`
decremented before the test, reaches 0. -/
def index_postings.iter_go : List Nat → List Nat → List Nat → Nat → List (Nat × Nat × Nat)
  | _, _, [], _ => []
  | docs, tfs, p :: ps, fr =>
    (docs.headD 0, tfs.headD 0, p) ::
      (let fr2 := (fr + 4294967295) % 4294967296
       if fr2 = 0 then
         index_postings.iter_go docs.tail tfs.tail ps (tfs.tail.headD 0)
       else
         index_postings.iter_go docs tfs ps fr2)

/-- The rendering loop of `index_postings::text_render` (lines 629-645):
`previous_document_id` starts at `uint32_t` max; a posting with a new document id
closes the previous group (unless none was open) and opens `<docid,tf,pos`, a
posting with the same document id appends `,pos`; a final `>` closes the stream. -/
def index_postings.render_list (prev : Nat) : List (Nat × Nat × Nat) → String
  | [] => ">"
  | (d, f, p) :: rest =>
    if d ≠ prev then
      (if prev ≠ 4294967295 then ">" else "")
        ++ "<" ++ Nat.repr d ++ "," ++ Nat.repr f ++ "," ++ Nat.repr p
        ++ index_postings.render_list d rest
    else
      "," ++ Nat.repr p ++ index_postings.render_list prev rest

/-- `index_postings::text_render` composed with the iterator: the human-readable
rendering of the accumulated postings. -/
def index_postings.text_render (s : index_postings) : String :=
  index_postings.render_list 4294967295
    (index_postings.iter_go s.document_ids s.term_frequencies s.positions
      (s.term_frequencies.headD 0))

end JASS

namespace JASS

/-- Modelled from the spec: `std::numeric_limits<double>::max()` as an exact rational,
`(2 - 2 ^ (-52)) * 2 ^ 1023`.  IEEE doubles are modelled throughout by exact
rationals. -/
def double_max : Rat :=
  (2 ^ 53 - 1) * 2 ^ 971

/-- Modelled from the spec: `std::numeric_limits<double>::min()`, the smallest
positive normal double, `2 ^ (-1022)`. -/
def double_min : Rat :=
  1 / 2 ^ 1022

/-- Modelled from the spec: `index_postings_impact::smallest_impact`
(index_postings_impact.h is not among the sources); impacts conventionally span
`[1, 255]`. -/
def smallest_impact : Nat := 1

/-- Modelled from the spec: `index_postings_impact::largest_impact`. -/
def largest_impact : Nat := 255

/-- `quantize::impact_range = largest_impact - smallest_impact` (quantize.h line 40). -/
def impact_range : Rat :=
  254

/-- Pass A of the quantizer (quantize.h lines 52-59 and 86-114): starting from
`smallest_rsv = double_max` and `largest_rsv = double_min`, fold every observed score
through `if (score < smallest_rsv) smallest_rsv = score;
if (score > largest_rsv) largest_rsv = score`.  The scores are the values the opaque
ranker returns for the successive (term, document) pairs.  Returns
`(smallest_rsv, largest_rsv)`, the pair `get_bounds` (lines 199-203) reports. -/
def passA (scores : List Rat) : Rat × Rat :=
  scores.foldl
    (fun bounds score =>
      (if score < bounds.1 then score else bounds.1,
       if bounds.2 < score then score else bounds.2))
    (double_max, double_min)

/-- Truncation toward zero of a rational (`Int.tdiv` is T-division): the effect of
`static_cast` from double to an integer type on an in-range value. -/
def rat_trunc (q : Rat) : Int :=
  Int.tdiv q.num (q.den : Int)

/-- The pass B impact computation for one posting (quantize.h line 166):
`impact = static_cast<impact_type>((score - smallest_rsv) / (largest_rsv - smallest_rsv)
* impact_range) + smallest_impact`.  The division is made explicit: when
`largest_rsv - smallest_rsv = 0` the source divides zero by zero — in IEEE arithmetic
a NaN whose integer cast is undefined — modelled by `none`. -/
def quantize_impact (smallest_rsv largest_rsv score : Rat) : Option Nat :=
  if largest_rsv - smallest_rsv = 0 then none
  else
    some ((rat_trunc ((score - smallest_rsv) / (largest_rsv - smallest_rsv) * impact_range)).toNat
      + smallest_impact)

/-- Pass B of the quantizer (quantize.h lines 143-174) over the same observed scores:
every (term, document) score is mapped to its emitted impact. -/
def passB (smallest_rsv largest_rsv : Rat) (scores : List Rat) : List (Option Nat) :=
  scores.map (quantize_impact smallest_rsv largest_rsv)

end JASS

namespace JASS

/-- `pointer_box::compare` (pointer_box.h lines 68-83) for boxed pointers into one
`int` array: pointers are modelled as indices, dereference as `arr.getD _ 0`;
compare the pointees first, break ties on the pointer (index) order. -/
def pointer_box.compare (arr : List Int) (a b : Nat) : Int :=
  if arr.getD a 0 < arr.getD b 0 then -1
  else if arr.getD b 0 < arr.getD a 0 then 1
  else if a < b then -1
  else if b < a then 1
  else 0

/-- `pointer_box::operator<` (lines 94-97): `*element < *to.element ||
(*element == *to.element && element < to.element)`. -/
def pointer_box.lt (arr : List Int) (a b : Nat) : Bool :=
  decide (arr.getD a 0 < arr.getD b 0)
    || (decide (arr.getD a 0 = arr.getD b 0) && decide (a < b))

end JASS

namespace JASS

/-- `printer::push_back` (jassv1_to_human.cpp lines 71-80): the 256-bit lane register
is stored to eight 32-bit slots; slot `which` is emitted as the pair
`(document_id, impact)` when it is non-zero, where `impact` is the score remembered
by `printer::set_score` (lines 58-61).  The emitted standard-output records
`<docid,impact>` are modelled as the list of emitted pairs. -/
def printer.push_back (impact : Nat) (document_ids : List Nat) : List (Nat × Nat) :=
  (List.range 8).filterMap
    (fun which =>
      if document_ids.getD which 0 ≠ 0 then some (document_ids.getD which 0, impact)
      else none)

end JASS

/-
  Lemmas.
-/

namespace JASS

theorem ffs_of_odd {x : Nat} (h : x % 2 = 1) : find_first_set_bit x = 1 := by
  rw [find_first_set_bit]
  have hx : x ≠ 0 := by omega
  simp [hx, h]

theorem ffs_of_even {x : Nat} (hx : x ≠ 0) (h : x % 2 = 0) :
    find_first_set_bit x = find_first_set_bit (x / 2) + 1 := by
  rw [find_first_set_bit]
  simp [hx, h]

theorem ffs_two_pow_add (w : Nat) : ∀ s : Nat,
    find_first_set_bit (2 ^ w + s * 2 ^ (w + 1)) = w + 1 := by
  induction w with
  | zero =>
    intro s
    apply ffs_of_odd
    omega
  | succ k ih =>
    intro s
    have hx : 2 ^ (k + 1) + s * 2 ^ (k + 2) = 2 * (2 ^ k + s * 2 ^ (k + 1)) := by ring
    rw [hx, ffs_of_even (by positivity) (by omega),
      Nat.mul_div_cancel_left _ (by norm_num : 0 < 2), ih]

theorem compute_selector_nil : compute_selector [] = 0 := rfl

theorem selector_step_lt {S w sum : Nat} (hw : 1 ≤ w) (hS : S < 2 ^ sum) :
    2 ^ (w - 1) + S * 2 ^ w < 2 ^ (w + sum) := by
  have h1 : 2 ^ (w - 1) < 2 ^ w := Nat.pow_lt_pow_right (by norm_num) (by omega)
  have h2 : S * 2 ^ w + 2 ^ w ≤ 2 ^ (w + sum) := by
    calc S * 2 ^ w + 2 ^ w = (S + 1) * 2 ^ w := by ring
      _ ≤ 2 ^ sum * 2 ^ w := Nat.mul_le_mul_right _ hS
      _ = 2 ^ (w + sum) := by rw [← pow_add, Nat.add_comm]
  omega

theorem compute_selector_cons (w : Nat) (ws : List Nat) :
    compute_selector (w :: ws)
      = ((compute_selector ws <<< w) ||| (1 <<< (w - 1))) % 2 ^ 32 := rfl

theorem compute_selector_cons_eq (w : Nat) (ws : List Nat) (hw : 1 ≤ w)
    (hS : compute_selector ws < 2 ^ ws.sum) (hsum : (w :: ws).sum ≤ 32) :
    compute_selector (w :: ws) = 2 ^ (w - 1) + compute_selector ws * 2 ^ w := by
  have hsum' : w + ws.sum ≤ 32 := by
    have := List.sum_cons (a := w) (l := ws)
    omega
  have hlt : 2 ^ (w - 1) + compute_selector ws * 2 ^ w < 2 ^ (w + ws.sum) :=
    selector_step_lt hw hS
  have hlt32 : 2 ^ (w - 1) + compute_selector ws * 2 ^ w < 2 ^ 32 :=
    lt_of_lt_of_le hlt (Nat.pow_le_pow_right (by norm_num) hsum')
  rw [compute_selector_cons, Nat.shiftLeft_eq, Nat.shiftLeft_eq, one_mul,
    Nat.mul_comm (compute_selector ws) (2 ^ w),
    ← Nat.mul_add_lt_is_or (Nat.pow_lt_pow_right (by norm_num) (by omega)) _]
  rw [Nat.mod_eq_of_lt (by rw [Nat.mul_comm]; omega)]
  ring

theorem compute_selector_lt (ws : List Nat) (hws : ∀ u ∈ ws, 1 ≤ u) (hsum : ws.sum ≤ 32) :
    compute_selector ws < 2 ^ ws.sum := by
  induction ws with
  | nil => simp [compute_selector_nil]
  | cons w ws ih =>
    have hw : 1 ≤ w := hws w (by simp)
    have hsum0 := List.sum_cons (a := w) (l := ws)
    have hsum' : ws.sum ≤ 32 := by omega
    have hS := ih (fun u hu => hws u (by simp [hu])) hsum'
    rw [compute_selector_cons_eq w ws hw hS hsum, hsum0]
    exact selector_step_lt hw hS

theorem selector_shift {w S : Nat} (hw : 1 ≤ w) :
    (2 ^ (w - 1) + S * 2 ^ w) >>> w = S := by
  have h1 : 2 ^ (w - 1) < 2 ^ w := Nat.pow_lt_pow_right (by norm_num) (by omega)
  rw [Nat.shiftRight_eq_div_pow,
    Nat.add_mul_div_right _ _ (Nat.two_pow_pos w),
    Nat.div_eq_of_lt h1, Nat.zero_add]

theorem selector_ffs {w S : Nat} (hw : 1 ≤ w) :
    find_first_set_bit (2 ^ (w - 1) + S * 2 ^ w) = w := by
  have hww : w = (w - 1) + 1 := by omega
  have h : 2 ^ (w - 1) + S * 2 ^ w = 2 ^ (w - 1) + S * 2 ^ ((w - 1) + 1) := by
    rw [← hww]
  rw [h, ffs_two_pow_add, ← hww]

theorem extract_widths_zero : extract_widths 0 = [] := by
  rw [extract_widths]
  simp

theorem extract_widths_compute_selector (ws : List Nat)
    (hws : ∀ u ∈ ws, 1 ≤ u) (hsum : ws.sum ≤ 32) :
    extract_widths (compute_selector ws) = ws := by
  induction ws with
  | nil => exact extract_widths_zero
  | cons w ws ih =>
    have hw : 1 ≤ w := hws w (by simp)
    have hsum0 := List.sum_cons (a := w) (l := ws)
    have hsum' : ws.sum ≤ 32 := by omega
    have hS := compute_selector_lt ws (fun u hu => hws u (by simp [hu])) hsum'
    have hcons := compute_selector_cons_eq w ws hw hS hsum
    have hne : compute_selector (w :: ws) ≠ 0 := by
      rw [hcons]
      positivity
    rw [extract_widths, dif_neg hne, hcons, selector_ffs hw]
    show w :: extract_widths ((2 ^ (w - 1) + compute_selector ws * 2 ^ w) >>> w) = w :: ws
    rw [selector_shift hw, ih (fun u hu => hws u (by simp [hu])) hsum']

end JASS

namespace JASS

theorem chunk16_length (array : List Nat) : (chunk16 array).length = 16 := by
  simp only [chunk16, List.length_append, List.length_take, List.length_replicate]
  omega

theorem chunks_of_mem_length {k : Nat} : ∀ {array : List Nat} {l : List Nat},
    l ∈ chunks_of k array → l.length = 16 := by
  induction k with
  | zero => intro array l h; simp [chunks_of] at h
  | succ k ih =>
    intro array l h
    rw [chunks_of] at h
    rcases List.mem_cons.mp h with h1 | h2
    · rw [h1]; exact chunk16_length array
    · exact ih h2

theorem chunks_of_flatten : ∀ (k : Nat) (array : List Nat),
    (chunks_of k array).flatten
      = array.take (16 * k) ++ List.replicate (16 * k - array.length) 0 := by
  intro k
  induction k with
  | zero => intro array; simp [chunks_of]
  | succ k ih =>
    intro array
    rw [chunks_of, List.flatten_cons, ih (array.drop 16), chunk16]
    by_cases hlen : 16 ≤ array.length
    · have h1 : 16 - array.length = 0 := by omega
      have h2 : 16 * (k + 1) = 16 + 16 * k := by ring
      have h3 : 16 * (k + 1) - array.length = 16 * k - (array.drop 16).length := by
        simp only [List.length_drop]; omega
      rw [h1, h3, h2, List.take_add]
      simp
    · have h1 : array.take 16 = array := List.take_of_length_le (by omega)
      have h2 : array.drop 16 = [] := List.drop_eq_nil_of_le (by omega)
      have h3 : array.take (16 * (k + 1)) = array := List.take_of_length_le (by omega)
      rw [h1, h2, h3]
      simp only [List.take_nil, List.length_drop, List.nil_append, List.length_nil,
        Nat.sub_zero, List.append_assoc, ← List.replicate_add]
      congr 2
      omega

theorem or_bound_left {a b n : Nat} (h : a ||| b < 2 ^ n) : a < 2 ^ n := by
  apply Nat.lt_pow_two_of_testBit
  intro i hi
  have hor : (a ||| b).testBit i = false :=
    Nat.testBit_lt_two_pow
      (lt_of_lt_of_le h (Nat.pow_le_pow_right (by norm_num) hi))
  rw [Nat.testBit_or] at hor
  exact (Bool.or_eq_false_iff.mp hor).1

theorem or_bound_right {a b n : Nat} (h : a ||| b < 2 ^ n) : b < 2 ^ n := by
  rw [Nat.lor_comm] at h
  exact or_bound_left h

theorem foldl_or_lt {n : Nat} : ∀ (l : List Nat) (a : Nat), a < 2 ^ n →
    (∀ v ∈ l, v < 2 ^ n) → l.foldl (fun x y => x ||| y) a < 2 ^ n := by
  intro l
  induction l with
  | nil => intro a ha _; exact ha
  | cons v vs ih =>
    intro a ha hv
    exact ih (a ||| v) (Nat.or_lt_two_pow ha (hv v (by simp)))
      (fun x hx => hv x (by simp [hx]))

theorem foldl_or_bounds {n : Nat} : ∀ (l : List Nat) (a : Nat),
    l.foldl (fun x y => x ||| y) a < 2 ^ n → a < 2 ^ n ∧ ∀ v ∈ l, v < 2 ^ n := by
  intro l
  induction l with
  | nil => intro a ha; exact ⟨ha, by simp⟩
  | cons v vs ih =>
    intro a ha
    obtain ⟨hav, hvs⟩ := ih (a ||| v) ha
    refine ⟨or_bound_left hav, ?_⟩
    intro x hx
    rcases List.mem_cons.mp hx with h1 | h2
    · rw [h1]; exact or_bound_right hav
    · exact hvs x h2

theorem foldl_or_ne_zero : ∀ (l : List Nat) (a : Nat), a ≠ 0 →
    l.foldl (fun x y => x ||| y) a ≠ 0 := by
  intro l
  induction l with
  | nil => intro a ha; exact ha
  | cons v vs ih =>
    intro a ha
    apply ih
    intro hz
    have hz2 : a ||| v = 0 := hz
    have hlt : a ||| v < 2 ^ 0 := by
      rw [hz2]
      norm_num
    have h2 : a < 1 := by simpa using or_bound_left hlt
    exact ha (by omega)

theorem slice_width_pos (array : List Nat) : 1 ≤ slice_width array :=
  Nat.succ_le_succ (Nat.zero_le _)

theorem chunk16_lt (array : List Nat) :
    ∀ v ∈ chunk16 array, v < 2 ^ slice_width array := by
  intro v hv
  have hOR : (array.take 16).foldl (fun x y => x ||| y) 1 < 2 ^ slice_width array :=
    Nat.lt_log2_self
  rcases List.mem_append.mp hv with h1 | h2
  · exact (foldl_or_bounds (array.take 16) 1 hOR).2 v h1
  · have : v = 0 := List.eq_of_mem_replicate h2
    rw [this]
    positivity

theorem slice_width_le (array : List Nat) (h : ∀ x ∈ array, x < 2 ^ 32) :
    slice_width array ≤ 32 := by
  have hOR : (array.take 16).foldl (fun x y => x ||| y) 1 < 2 ^ 32 :=
    foldl_or_lt (array.take 16) 1 (by norm_num)
      (fun v hv => h v (List.mem_of_mem_take hv))
  have hne : (array.take 16).foldl (fun x y => x ||| y) 1 ≠ 0 :=
    foldl_or_ne_zero (array.take 16) 1 (by norm_num)
  have := (Nat.log2_lt hne).mpr hOR
  simp only [slice_width, ceiling_log2]
  omega

end JASS

namespace JASS

theorem pack_slice_eq_merge : ∀ (payload group : List Nat) (shift w : Nat),
    (∀ x ∈ payload, x < 2 ^ shift) → (∀ v ∈ group, v < 2 ^ w) → shift + w ≤ 32 →
    pack_slice group shift payload = merge_payload shift payload group := by
  intro payload
  induction payload with
  | nil => intro g shift w _ _ _; rfl
  | cons p ps ih =>
    intro g shift w hp hg hsw
    cases g with
    | nil => rfl
    | cons v vs =>
      have hv : v < 2 ^ w := hg v (by simp)
      have hpp : p < 2 ^ shift := hp p (by simp)
      have hhead : p ||| ((v <<< shift) % 2 ^ 32) = p + v * 2 ^ shift := by
        rw [Nat.shiftLeft_eq]
        have hmod : v * 2 ^ shift % 2 ^ 32 = v * 2 ^ shift := by
          apply Nat.mod_eq_of_lt
          calc v * 2 ^ shift < 2 ^ w * 2 ^ shift :=
                mul_lt_mul_of_pos_right hv (by positivity)
            _ = 2 ^ (shift + w) := by rw [← pow_add, Nat.add_comm]
            _ ≤ 2 ^ 32 := Nat.pow_le_pow_right (by norm_num) hsw
        rw [hmod, Nat.mul_comm v, Nat.lor_comm, ← Nat.mul_add_lt_is_or hpp v]
        ring
      show (p ||| ((v <<< shift) % 2 ^ 32)) :: pack_slice vs shift ps
          = (p + v * 2 ^ shift) :: merge_payload shift ps vs
      rw [hhead, ih vs shift w (fun x hx => hp x (by simp [hx]))
        (fun x hx => hg x (by simp [hx])) hsw]

theorem merge_payload_lt : ∀ (payload group : List Nat) (shift w : Nat),
    (∀ x ∈ payload, x < 2 ^ shift) → (∀ v ∈ group, v < 2 ^ w) →
    ∀ x ∈ merge_payload shift payload group, x < 2 ^ (shift + w) := by
  intro payload
  induction payload with
  | nil => intro g shift w _ _ x hx; simp [merge_payload] at hx
  | cons p ps ih =>
    intro g shift w hp hg x hx
    cases g with
    | nil => simp [merge_payload] at hx
    | cons v vs =>
      have hx2 : x = p + v * 2 ^ shift ∨ x ∈ merge_payload shift ps vs := by
        simpa [merge_payload] using hx
      rcases hx2 with h1 | h2
      · have hv : v < 2 ^ w := hg v (by simp)
        have hpp : p < 2 ^ shift := hp p (by simp)
        have hb : v * 2 ^ shift + 2 ^ shift ≤ 2 ^ (shift + w) := by
          calc v * 2 ^ shift + 2 ^ shift = (v + 1) * 2 ^ shift := by ring
            _ ≤ 2 ^ w * 2 ^ shift := Nat.mul_le_mul_right _ hv
            _ = 2 ^ (shift + w) := by rw [← pow_add, Nat.add_comm]
        omega
      · exact ih vs shift w (fun y hy => hp y (by simp [hy]))
          (fun y hy => hg y (by simp [hy])) x h2

theorem merge_payload_length (shift : Nat) (payload group : List Nat) :
    (merge_payload shift payload group).length = min payload.length group.length := by
  simp [merge_payload]

theorem zipWith_replicate_zero_right : ∀ (group : List Nat) (n w : Nat),
    group.length = n →
    List.zipWith (fun v p => v + p * 2 ^ w) group (List.replicate n 0) = group := by
  intro group
  induction group with
  | nil => intro n w _; simp
  | cons v vs ih =>
    intro n w hn
    cases n with
    | zero => simp at hn
    | succ m =>
      simp only [List.replicate_succ, List.zipWith_cons_cons, Nat.mul_comm,
        Nat.zero_mul, Nat.add_zero]
      rw [ih m w (by simpa using hn)]

theorem pack_pairs_single (w : Nat) (group : List Nat) (hg : group.length = 16) :
    pack_pairs [(w, group)] = group := by
  rw [pack_pairs, pack_pairs]
  exact zipWith_replicate_zero_right group 16 w hg

theorem pack_pairs_length : ∀ (pairs : List (Nat × List Nat)),
    (∀ p ∈ pairs, p.2.length = 16) → (pack_pairs pairs).length = 16 := by
  intro pairs
  induction pairs with
  | nil => intro _; simp [pack_pairs]
  | cons hd tl ih =>
    intro h
    obtain ⟨w, g⟩ := hd
    rw [pack_pairs]
    simp only [List.length_zipWith]
    rw [ih (fun p hp => h p (by simp [hp]))]
    have : g.length = 16 := h (w, g) (by simp)
    omega

theorem merge_payload_zero : ∀ (q : List Nat), q.length = 16 →
    merge_payload 0 (List.replicate 16 0) q = q := by
  have hgen : ∀ (n : Nat) (q : List Nat), q.length = n →
      merge_payload 0 (List.replicate n 0) q = q := by
    intro n
    induction n with
    | zero => intro q hq; rw [List.length_eq_zero] at hq; simp [merge_payload, hq]
    | succ m ih =>
      intro q hq
      cases q with
      | nil => simp at hq
      | cons v vs =>
        show (0 + v * 2 ^ 0) :: merge_payload 0 (List.replicate m 0) vs = v :: vs
        rw [ih vs (by simpa using hq)]
        norm_num
  exact hgen 16

theorem merge_payload_assoc : ∀ (payload group q : List Nat) (shift w : Nat),
    merge_payload (shift + w) (merge_payload shift payload group) q
      = merge_payload shift payload (List.zipWith (fun v p => v + p * 2 ^ w) group q) := by
  intro payload
  induction payload with
  | nil => intro g q shift w; simp [merge_payload]
  | cons p ps ih =>
    intro g q shift w
    cases g with
    | nil => simp [merge_payload]
    | cons v vs =>
      cases q with
      | nil => simp [merge_payload]
      | cons x xs =>
        show (p + v * 2 ^ shift + x * 2 ^ (shift + w))
              :: merge_payload (shift + w) (merge_payload shift ps vs) xs
            = (p + (v + x * 2 ^ w) * 2 ^ shift)
              :: merge_payload shift ps (List.zipWith (fun a b => a + b * 2 ^ w) vs xs)
        rw [ih vs xs shift w]
        congr 1
        rw [pow_add]
        ring

theorem map_and_merge : ∀ (group q : List Nat) (w : Nat),
    (∀ v ∈ group, v < 2 ^ w) → group.length ≤ q.length →
    (List.zipWith (fun v p => v + p * 2 ^ w) group q).map (fun x => x &&& mask_set w)
      = group := by
  intro group
  induction group with
  | nil => intro q w _ _; simp
  | cons v vs ih =>
    intro q w hv hq
    cases q with
    | nil => simp at hq
    | cons x xs =>
      show ((v + x * 2 ^ w) &&& mask_set w) :: _ = v :: _
      have hhead : (v + x * 2 ^ w) &&& mask_set w = v := by
        show (v + x * 2 ^ w) &&& (2 ^ w - 1) = v
        rw [Nat.and_pow_two_sub_one_eq_mod, Nat.add_mul_mod_self_right,
          Nat.mod_eq_of_lt (hv v (by simp))]
      rw [hhead, ih xs w (fun y hy => hv y (by simp [hy])) (by simpa using hq)]

theorem map_shift_merge : ∀ (group q : List Nat) (w : Nat),
    (∀ v ∈ group, v < 2 ^ w) → q.length ≤ group.length →
    (List.zipWith (fun v p => v + p * 2 ^ w) group q).map (fun x => x >>> w) = q := by
  intro group
  induction group with
  | nil =>
    intro q w _ hq
    have hq2 : q = [] := List.length_eq_zero.mp (by simpa using hq)
    simp [hq2]
  | cons v vs ih =>
    intro q w hv hq
    cases q with
    | nil => simp
    | cons x xs =>
      show ((v + x * 2 ^ w) >>> w) :: _ = x :: _
      have hhead : (v + x * 2 ^ w) >>> w = x := by
        rw [Nat.shiftRight_eq_div_pow,
          Nat.add_mul_div_right _ _ (Nat.two_pow_pos w),
          Nat.div_eq_of_lt (hv v (by simp)), Nat.zero_add]
      rw [hhead, ih xs w (fun y hy => hv y (by simp [hy])) (by simpa using hq)]

theorem decode_slices_zero (payload : List Nat) : decode_slices 0 payload = [] := by
  rw [decode_slices]
  simp

theorem decode_slices_pack : ∀ (pairs : List (Nat × List Nat)),
    (∀ p ∈ pairs, p.2.length = 16) →
    (∀ p ∈ pairs, 1 ≤ p.1) →
    (∀ p ∈ pairs, ∀ v ∈ p.2, v < 2 ^ p.1) →
    (pairs.map Prod.fst).sum ≤ 32 →
    decode_slices (compute_selector (pairs.map Prod.fst)) (pack_pairs pairs)
      = (pairs.map Prod.snd).flatten := by
  intro pairs
  induction pairs with
  | nil =>
    intro _ _ _ _
    simp only [List.map_nil, compute_selector_nil, List.flatten_nil]
    exact decode_slices_zero _
  | cons hd tl ih =>
    intro hg hw hv hsum
    obtain ⟨w, g⟩ := hd
    have hw1 : 1 ≤ w := hw (w, g) (by simp)
    have hg16 : g.length = 16 := hg (w, g) (by simp)
    have hsum0 : ((w, g) :: tl).map Prod.fst = w :: tl.map Prod.fst := by simp
    have hsumc : (w :: tl.map Prod.fst).sum = w + (tl.map Prod.fst).sum :=
      List.sum_cons
    have hsum' : (tl.map Prod.fst).sum ≤ 32 := by
      rw [hsum0, hsumc] at hsum
      omega
    have hS := compute_selector_lt (tl.map Prod.fst)
      (by
        intro u hu
        obtain ⟨p, hp, hpu⟩ := List.mem_map.mp hu
        rw [← hpu]
        exact hw p (by simp [hp]))
      hsum'
    have hcons := compute_selector_cons_eq w (tl.map Prod.fst) hw1 hS
      (by rw [← hsum0]; exact hsum)
    have hne : compute_selector (((w, g) :: tl).map Prod.fst) ≠ 0 := by
      rw [hsum0, hcons]
      positivity
    have hQlen : (pack_pairs tl).length = 16 :=
      pack_pairs_length tl (fun p hp => hg p (by simp [hp]))
    have hvg : ∀ v ∈ g, v < 2 ^ w := hv (w, g) (by simp)
    rw [decode_slices, dif_neg hne, hsum0, hcons, selector_ffs hw1]
    show (pack_pairs ((w, g) :: tl)).map (fun x => x &&& mask_set w)
        ++ decode_slices ((2 ^ (w - 1) + compute_selector (tl.map Prod.fst) * 2 ^ w) >>> w)
            ((pack_pairs ((w, g) :: tl)).map (fun x => x >>> w))
        = (((w, g) :: tl).map Prod.snd).flatten
    have hpp : pack_pairs ((w, g) :: tl)
        = List.zipWith (fun v p => v + p * 2 ^ w) g (pack_pairs tl) := rfl
    rw [selector_shift hw1, hpp,
      map_and_merge g (pack_pairs tl) w hvg (by omega),
      map_shift_merge g (pack_pairs tl) w hvg (by omega),
      ih (fun p hp => hg p (by simp [hp])) (fun p hp => hw p (by simp [hp]))
        (fun p hp => hv p (by simp [hp])) hsum']
    simp

end JASS

namespace JASS

theorem pack_slice_length (group : List Nat) (shift : Nat) (payload : List Nat) :
    (pack_slice group shift payload).length = min payload.length group.length := by
  simp [pack_slice]

theorem merge_payload_replicate_zero (shift : Nat) (payload : List Nat)
    (h : payload.length = 16) :
    merge_payload shift payload (List.replicate 16 0) = payload := by
  show List.zipWith (fun p v => p + v * 2 ^ shift) payload (List.replicate 16 0) = payload
  exact zipWith_replicate_zero_right payload 16 shift h

theorem encode_slices_spec : ∀ (remaining : Nat) (array payload : List Nat) (shift : Nat),
    (∀ x ∈ array, x < 2 ^ 32) →
    payload.length = 16 →
    (∀ x ∈ payload, x < 2 ^ shift) →
    shift + remaining = 32 →
    ∃ ws rest fin,
      encode_slices array remaining shift payload
        = (ws, merge_payload shift payload (pack_pairs (ws.zip (chunks_of ws.length array))),
            rest, fin)
      ∧ rest = array.drop (16 * ws.length)
      ∧ (∀ u ∈ ws, 1 ≤ u)
      ∧ (ws = [] ∨ ws.sum = remaining)
      ∧ (∀ p ∈ ws.zip (chunks_of ws.length array), ∀ v ∈ p.2, v < 2 ^ p.1)
      ∧ (fin = true → array.length ≤ 16 * ws.length)
      ∧ (fin = false → ws = [] ∨ 16 * ws.length < array.length)
      ∧ (slice_width array ≤ remaining → ws ≠ []) := by
  intro remaining
  induction remaining using Nat.strong_induction_on with
  | _ remaining ih =>
    intro array payload shift hlegal hplen hplow hsr
    by_cases hwle : slice_width array ≤ remaining
    · have hw1 : 1 ≤ remaining := le_trans (slice_width_pos array) hwle
      have hchunk_lt : ∀ v ∈ chunk16 array, v < 2 ^ remaining := by
        intro v hv
        exact lt_of_lt_of_le (chunk16_lt array v hv)
          (Nat.pow_le_pow_right (by norm_num) hwle)
      have hmerge1 : pack_slice (chunk16 array) shift payload
          = merge_payload shift payload (chunk16 array) :=
        pack_slice_eq_merge payload (chunk16 array) shift remaining hplow hchunk_lt
          (by omega)
      by_cases hlen : array.length ≤ 16
      · -- the input is exhausted by this slice: the return at line 261
        refine ⟨[remaining], [], true, ?_, ?_, ?_, ?_, ?_, ?_, ?_, ?_⟩
        · rw [encode_slices]
          simp only [dif_pos hwle, if_pos hlen]
          have hzip : ([remaining].zip (chunks_of 1 array)) = [(remaining, chunk16 array)] := by
            simp [chunks_of]
          simp only [List.length_singleton, hzip,
            pack_pairs_single remaining (chunk16 array) (chunk16_length array), hmerge1]
        · symm
          apply List.drop_eq_nil_of_le
          simp only [List.length_singleton]
          omega
        · intro u hu
          simp only [List.mem_singleton] at hu
          omega
        · right
          simp
        · intro p hp
          have hzip : ([remaining].zip (chunks_of 1 array)) = [(remaining, chunk16 array)] := by
            simp [chunks_of]
          rw [List.length_singleton, hzip] at hp
          simp only [List.mem_singleton] at hp
          rw [hp]
          exact hchunk_lt
        · intro _
          simp only [List.length_singleton]
          omega
        · intro hfalse
          simp at hfalse
        · intro _
          simp
      · -- at least one further slice: the recursive call
        have hpacklen : (pack_slice (chunk16 array) shift payload).length = 16 := by
          rw [pack_slice_length, hplen, chunk16_length]
          exact Nat.min_self 16
        have hpacklow : ∀ x ∈ pack_slice (chunk16 array) shift payload,
            x < 2 ^ (shift + slice_width array) := by
          rw [hmerge1]
          exact merge_payload_lt payload (chunk16 array) shift (slice_width array)
            hplow (chunk16_lt array)
        have hsw1 : 1 ≤ slice_width array := slice_width_pos array
        obtain ⟨ws', rest', fin', heq, hrest', hge1', hsum', hval', hfint', hfinf', hne'⟩ :=
          ih (remaining - slice_width array) (by omega) (array.drop 16)
            (pack_slice (chunk16 array) shift payload) (shift + slice_width array)
            (fun x hx => hlegal x (List.mem_of_mem_drop hx)) hpacklen hpacklow
            (by omega)
        rcases ws' with _ | ⟨w2, ws2⟩
        · -- the next slice did not fit: this slice is the frame's last
          have hfin'false : fin' = false := by
            cases fin' with
            | false => rfl
            | true =>
              have := hfint' rfl
              simp only [List.length_nil, Nat.mul_zero, Nat.le_zero,
                List.length_drop] at this
              omega
          have hpz : pack_pairs (([] : List Nat).zip (chunks_of 0 (array.drop 16)))
              = List.replicate 16 0 := rfl
          have hmz : merge_payload (shift + slice_width array)
              (pack_slice (chunk16 array) shift payload) (List.replicate 16 0)
              = pack_slice (chunk16 array) shift payload :=
            merge_payload_replicate_zero _ _ hpacklen
          rw [hfin'false] at heq
          simp only [List.length_nil] at heq
          rw [hpz, hmz] at heq
          have hrest2 : rest' = array.drop 16 := by simpa using hrest'
          refine ⟨[remaining], array.drop 16, false, ?_, ?_, ?_, ?_, ?_, ?_, ?_, ?_⟩
          · rw [encode_slices]
            simp only [dif_pos hwle, if_neg hlen, heq, hrest2]
            have hzip : ([remaining].zip (chunks_of 1 array))
                = [(remaining, chunk16 array)] := by
              simp [chunks_of]
            simp only [List.length_singleton, hzip,
              pack_pairs_single remaining (chunk16 array) (chunk16_length array), hmerge1]
          · simp
          · intro u hu
            simp only [List.mem_singleton] at hu
            omega
          · right
            simp
          · intro p hp
            have hzip : ([remaining].zip (chunks_of 1 array))
                = [(remaining, chunk16 array)] := by
              simp [chunks_of]
            rw [List.length_singleton, hzip] at hp
            simp only [List.mem_singleton] at hp
            rw [hp]
            exact hchunk_lt
          · intro hab
            simp at hab
          · intro _
            right
            simpa using hlen
          · intro _
            simp
        · -- the frame continues with the widths recorded by the recursive call
          have hvg : ∀ v ∈ chunk16 array, v < 2 ^ slice_width array := chunk16_lt array
          refine ⟨slice_width array :: w2 :: ws2, rest', fin', ?_, ?_, ?_, ?_, ?_, ?_, ?_, ?_⟩
          · rw [encode_slices]
            simp only [dif_pos hwle, if_neg hlen, heq]
            have hzipc : ((slice_width array :: w2 :: ws2).zip
                  (chunks_of (slice_width array :: w2 :: ws2).length array))
                = (slice_width array, chunk16 array)
                  :: ((w2 :: ws2).zip (chunks_of (w2 :: ws2).length (array.drop 16))) := by
              simp only [List.length_cons]
              rw [chunks_of]
              simp
            rw [hzipc]
            have hppc : pack_pairs ((slice_width array, chunk16 array)
                  :: ((w2 :: ws2).zip (chunks_of (w2 :: ws2).length (array.drop 16))))
                = List.zipWith (fun v p => v + p * 2 ^ slice_width array) (chunk16 array)
                    (pack_pairs ((w2 :: ws2).zip
                      (chunks_of (w2 :: ws2).length (array.drop 16)))) := rfl
            rw [hppc, ← merge_payload_assoc, ← hmerge1]
          · rw [hrest', List.drop_drop]
            congr 1
            simp only [List.length_cons]
            ring
          · intro u hu
            rcases List.mem_cons.mp hu with h1 | h2
            · rw [h1]; exact slice_width_pos array
            · exact hge1' u h2
          · right
            rcases hsum' with h1 | h2
            · simp at h1
            · rw [List.sum_cons, h2]
              omega
          · intro p hp
            have hzipc : ((slice_width array :: w2 :: ws2).zip
                  (chunks_of (slice_width array :: w2 :: ws2).length array))
                = (slice_width array, chunk16 array)
                  :: ((w2 :: ws2).zip (chunks_of (w2 :: ws2).length (array.drop 16))) := by
              simp only [List.length_cons]
              rw [chunks_of]
              simp
            rw [hzipc] at hp
            rcases List.mem_cons.mp hp with h1 | h2
            · rw [h1]
              exact hvg
            · exact hval' p h2
          · intro hf
            have := hfint' hf
            simp only [List.length_drop, List.length_cons] at this
            simp only [List.length_cons]
            omega
          · intro hf
            rcases hfinf' hf with h1 | h2
            · simp at h1
            · right
              simp only [List.length_drop, List.length_cons] at h2
              simp only [List.length_cons]
              omega
          · intro _
            simp
    · -- the slice width exceeds the free bits: widthless break (lines 265-266)
      refine ⟨[], array, false, ?_, ?_, ?_, ?_, ?_, ?_, ?_, ?_⟩
      · rw [encode_slices]
        simp only [dif_neg hwle]
        have hpz : pack_pairs (([] : List Nat).zip (chunks_of 0 array))
            = List.replicate 16 0 := rfl
        rw [List.length_nil, hpz, merge_payload_replicate_zero _ _ hplen]
      · simp
      · intro u hu
        simp at hu
      · left
        rfl
      · intro p hp
        simp [chunks_of] at hp
      · intro hab
        simp at hab
      · intro _
        left
        rfl
      · intro hcon
        exact absurd hcon hwle

end JASS

namespace JASS

theorem chunks_of_length : ∀ (k : Nat) (array : List Nat),
    (chunks_of k array).length = k := by
  intro k
  induction k with
  | zero => intro array; rfl
  | succ m ih => intro array; rw [chunks_of]; simp [ih]

theorem encode_decode_aux : ∀ (n : Nat) (array : List Nat), array.length ≤ n →
    (∀ x ∈ array, x < 2 ^ 32) →
    ∃ m, decode_frames (encode_frames array) = array ++ List.replicate m 0 := by
  intro n
  induction n using Nat.strong_induction_on with
  | _ n ihn =>
    intro array hn hlegal
    obtain ⟨ws, rest, fin, heq, hrest, hge1, hsum, hval, hfint, hfinf, hne⟩ :=
      encode_slices_spec 32 array (List.replicate 16 0) 0 hlegal (by simp)
        (by intro x hx
            have : x = 0 := List.eq_of_mem_replicate hx
            rw [this]
            norm_num)
        (by omega)
    have hwle : slice_width array ≤ 32 := slice_width_le array hlegal
    have hws_ne : ws ≠ [] := hne hwle
    have hsum32 : ws.sum = 32 := by
      rcases hsum with h1 | h2
      · exact absurd h1 hws_ne
      · exact h2
    have hchlen : (chunks_of ws.length array).length = ws.length := chunks_of_length _ _
    have hglen : ∀ p ∈ ws.zip (chunks_of ws.length array), p.2.length = 16 := by
      intro p hp
      obtain ⟨q, r⟩ := p
      exact chunks_of_mem_length (List.of_mem_zip hp).2
    have hge1' : ∀ p ∈ ws.zip (chunks_of ws.length array), 1 ≤ p.1 := by
      intro p hp
      obtain ⟨q, r⟩ := p
      exact hge1 q (List.of_mem_zip hp).1
    have hmapfst : (ws.zip (chunks_of ws.length array)).map Prod.fst = ws :=
      List.map_fst_zip ws _ (by omega)
    have hmapsnd : (ws.zip (chunks_of ws.length array)).map Prod.snd
        = chunks_of ws.length array :=
      List.map_snd_zip ws _ (by omega)
    have hplen16 : (pack_pairs (ws.zip (chunks_of ws.length array))).length = 16 :=
      pack_pairs_length _ hglen
    have hpayload : merge_payload 0 (List.replicate 16 0)
        (pack_pairs (ws.zip (chunks_of ws.length array)))
        = pack_pairs (ws.zip (chunks_of ws.length array)) :=
      merge_payload_zero _ hplen16
    have hframe : decode_slices (compute_selector ws)
          (pack_pairs (ws.zip (chunks_of ws.length array)))
        = array.take (16 * ws.length) ++ List.replicate (16 * ws.length - array.length) 0 := by
      have hdec := decode_slices_pack (ws.zip (chunks_of ws.length array)) hglen hge1'
        hval (by rw [hmapfst]; omega)
      rw [hmapfst, hmapsnd] at hdec
      rw [hdec, chunks_of_flatten]
    have hsel_lt : compute_selector ws < 2 ^ 32 := by
      have := compute_selector_lt ws hge1 (by omega)
      rw [hsum32] at this
      exact this
    have hselmod : compute_selector ws % 2 ^ 32 = compute_selector ws :=
      Nat.mod_eq_of_lt hsel_lt
    cases fin with
    | true =>
      have hlen := hfint rfl
      have hframe_words : encode_frames array
          = compute_selector ws :: pack_pairs (ws.zip (chunks_of ws.length array)) := by
        rw [encode_frames, heq, hpayload]
        simp
      refine ⟨16 * ws.length - array.length, ?_⟩
      rw [hframe_words, decode_frames, List.take_of_length_le (le_of_eq hplen16),
        List.drop_eq_nil_of_le (le_of_eq hplen16), decode_frames,
        List.append_nil, hselmod, hframe, List.take_of_length_le hlen]
    | false =>
      have h16lt : 16 * ws.length < array.length := by
        rcases hfinf rfl with h1 | h2
        · exact absurd h1 hws_ne
        · exact h2
      have hrestlt : rest.length < array.length := by
        rw [hrest]
        simp only [List.length_drop]
        have hws1 : 1 ≤ ws.length := by
          cases ws with
          | nil => exact absurd rfl hws_ne
          | cons a l => simp
        omega
      have hframe_words : encode_frames array
          = (compute_selector ws :: pack_pairs (ws.zip (chunks_of ws.length array)))
            ++ encode_frames rest := by
        rw [encode_frames, heq, hpayload]
        simp only [Bool.false_eq_true, if_false, dif_pos hrestlt]
      obtain ⟨m2, hm2⟩ := ihn rest.length (by omega) rest (le_refl _)
        (by
          intro x hx
          apply hlegal
          rw [hrest] at hx
          exact List.mem_of_mem_drop hx)
      refine ⟨m2, ?_⟩
      rw [hframe_words, List.cons_append, decode_frames,
        List.take_left' hplen16, List.drop_left' hplen16, hselmod, hframe, hm2, hrest]
      have hz : 16 * ws.length - array.length = 0 := by omega
      rw [hz, List.replicate_zero, List.append_nil, ← List.append_assoc,
        List.take_append_drop]

end JASS

namespace JASS

theorem encode_loop_spec : ∀ (n : Nat) (array : List Nat), array.length ≤ n →
    (∀ x ∈ array, x < 2 ^ 32) →
    17 ≤ (encode_frames array).length ∧
    ∀ (len written : Nat),
      encode_loop len array written
        = if 4 * written + 4 * (encode_frames array).length + 4 ≤ len
          then 4 * written + 4 * (encode_frames array).length
          else 0 := by
  intro n
  induction n using Nat.strong_induction_on with
  | _ n ihn =>
    intro array hn hlegal
    obtain ⟨ws, rest, fin, heq, hrest, hge1, hsum, hval, hfint, hfinf, hne⟩ :=
      encode_slices_spec 32 array (List.replicate 16 0) 0 hlegal (by simp)
        (by intro x hx
            have : x = 0 := List.eq_of_mem_replicate hx
            rw [this]
            norm_num)
        (by omega)
    have hwle : slice_width array ≤ 32 := slice_width_le array hlegal
    have hws_ne : ws ≠ [] := hne hwle
    have hglen : ∀ p ∈ ws.zip (chunks_of ws.length array), p.2.length = 16 := by
      intro p hp
      obtain ⟨q, r⟩ := p
      exact chunks_of_mem_length (List.of_mem_zip hp).2
    have hplen16 : (pack_pairs (ws.zip (chunks_of ws.length array))).length = 16 :=
      pack_pairs_length _ hglen
    have hpayload : merge_payload 0 (List.replicate 16 0)
        (pack_pairs (ws.zip (chunks_of ws.length array)))
        = pack_pairs (ws.zip (chunks_of ws.length array)) :=
      merge_payload_zero _ hplen16
    cases fin with
    | true =>
      have hframe_words : encode_frames array
          = compute_selector ws :: pack_pairs (ws.zip (chunks_of ws.length array)) := by
        rw [encode_frames, heq, hpayload]
        simp
      have hflen : (encode_frames array).length = 17 := by
        rw [hframe_words]
        simp [hplen16]
      refine ⟨by omega, ?_⟩
      intro len written
      rw [encode_loop, heq, hflen]
      by_cases hc : 4 * written + 72 > len
      · rw [if_pos hc, if_neg (by omega)]
      · rw [if_neg hc]
        simp only [if_true]
        rw [if_pos (by omega)]
        ring
    | false =>
      have h16lt : 16 * ws.length < array.length := by
        rcases hfinf rfl with h1 | h2
        · exact absurd h1 hws_ne
        · exact h2
      have hrestlt : rest.length < array.length := by
        rw [hrest]
        simp only [List.length_drop]
        have hws1 : 1 ≤ ws.length := by
          cases ws with
          | nil => exact absurd rfl hws_ne
          | cons a l => simp
        omega
      have hframe_words : encode_frames array
          = (compute_selector ws :: pack_pairs (ws.zip (chunks_of ws.length array)))
            ++ encode_frames rest := by
        rw [encode_frames, heq, hpayload]
        simp only [Bool.false_eq_true, if_false, dif_pos hrestlt]
      have hlegal' : ∀ x ∈ rest, x < 2 ^ 32 := by
        intro x hx
        apply hlegal
        rw [hrest] at hx
        exact List.mem_of_mem_drop hx
      obtain ⟨hrlen17, hrloop⟩ := ihn rest.length (by omega) rest (le_refl _) hlegal'
      have hflen : (encode_frames array).length = 17 + (encode_frames rest).length := by
        rw [hframe_words]
        simp [hplen16]
        omega
      refine ⟨by omega, ?_⟩
      intro len written
      rw [encode_loop, heq, hflen]
      by_cases hc : 4 * written + 72 > len
      · rw [if_pos hc, if_neg (by omega)]
      · rw [if_neg hc]
        simp only [Bool.false_eq_true, if_false, dif_pos hrestlt, hrloop len (written + 17)]
        by_cases hc2 : 4 * (written + 17) + 4 * (encode_frames rest).length + 4 ≤ len
        · rw [if_pos hc2, if_pos (by omega)]
          ring
        · rw [if_neg hc2, if_neg (by omega)]

end JASS

namespace JASS

theorem passA_fold_spec (scores : List Rat) : ∀ (a b : Rat),
    (scores.foldl
      (fun bounds score =>
        (if score < bounds.1 then score else bounds.1,
         if bounds.2 < score then score else bounds.2)) (a, b)).1 ≤ a
    ∧ b ≤ (scores.foldl
      (fun bounds score =>
        (if score < bounds.1 then score else bounds.1,
         if bounds.2 < score then score else bounds.2)) (a, b)).2
    ∧ ∀ x ∈ scores,
        (scores.foldl
          (fun bounds score =>
            (if score < bounds.1 then score else bounds.1,
             if bounds.2 < score then score else bounds.2)) (a, b)).1 ≤ x
        ∧ x ≤ (scores.foldl
          (fun bounds score =>
            (if score < bounds.1 then score else bounds.1,
             if bounds.2 < score then score else bounds.2)) (a, b)).2 := by
  induction scores with
  | nil =>
    intro a b
    refine ⟨le_refl a, le_refl b, ?_⟩
    intro x hx
    simp at hx
  | cons s ss ih =>
    intro a b
    obtain ⟨h1, h2, h3⟩ := ih (if s < a then s else a) (if b < s then s else b)
    have ha1 : (if s < a then s else a) ≤ a := by
      by_cases h : s < a
      · rw [if_pos h]; exact le_of_lt h
      · rw [if_neg h]
    have ha2 : (if s < a then s else a) ≤ s := by
      by_cases h : s < a
      · rw [if_pos h]
      · rw [if_neg h]; exact le_of_not_lt h
    have hb1 : b ≤ (if b < s then s else b) := by
      by_cases h : b < s
      · rw [if_pos h]; exact le_of_lt h
      · rw [if_neg h]
    have hb2 : s ≤ (if b < s then s else b) := by
      by_cases h : b < s
      · rw [if_pos h]
      · rw [if_neg h]; exact le_of_not_lt h
    simp only [List.foldl_cons]
    refine ⟨le_trans h1 ha1, le_trans hb1 h2, ?_⟩
    intro x hx
    rcases List.mem_cons.mp hx with hxe | hxm
    · subst hxe
      exact ⟨le_trans h1 ha2, le_trans hb2 h2⟩
    · exact h3 x hxm

theorem rat_trunc_eq_floor (q : Rat) (h : 0 ≤ q) : rat_trunc q = ⌊q⌋ := by
  rw [rat_trunc, Int.tdiv_eq_ediv (Rat.num_nonneg.mpr h) (Int.natCast_nonneg q.den),
    Rat.floor_def]

end JASS

namespace JASS

theorem push_repeat_one : ∀ n : Nat, 1 ≤ n →
    index_postings.push_repeat index_postings.init 1 100 n
      = some ⟨1, 100, [1], [min n 65535], List.replicate n 100⟩ := by
  intro n
  induction n with
  | zero => intro h; omega
  | succ k ih =>
    intro _
    by_cases hk : 1 ≤ k
    · rw [index_postings.push_repeat, ih hk, Option.some_bind]
      rw [index_postings.push_back]
      simp [← List.replicate_succ']
      by_cases h : k ≤ 65534
      · rw [if_pos h]; omega
      · rw [if_neg h]; omega
    · have hk0 : k = 0 := by omega
      subst hk0
      rw [index_postings.push_repeat, index_postings.push_repeat, Option.some_bind,
        index_postings.push_back]
      norm_num [index_postings.init]

theorem filterMap_range_getD (impact : Nat) : ∀ (l : List Nat) (n : Nat), l.length = n →
    (List.range n).filterMap
      (fun i => if l.getD i 0 ≠ 0 then some (l.getD i 0, impact) else none)
    = (l.filter (fun d => d ≠ 0)).map (fun d => (d, impact)) := by
  intro l
  induction l with
  | nil =>
    intro n hn
    subst hn
    simp
  | cons a as ih =>
    intro n hn
    subst hn
    rw [List.length_cons, List.range_succ_eq_map, List.filterMap_cons,
      List.filterMap_map]
    have htail : (List.range as.length).filterMap
        ((fun i => if (a :: as).getD i 0 ≠ 0
          then some ((a :: as).getD i 0, impact) else none) ∘ Nat.succ)
        = (List.range as.length).filterMap
          (fun i => if as.getD i 0 ≠ 0 then some (as.getD i 0, impact) else none) := by
      apply List.filterMap_congr
      intro i hi
      simp [Function.comp, List.getD_cons_succ]
    by_cases ha : a = 0
    · subst ha
      simp only [List.getD_cons_zero, ne_eq, not_true_eq_false, if_false,
        reduceIte, htail, ih as.length rfl]
      rw [List.filter_cons]
      simp
    · simp only [List.getD_cons_zero, ne_eq, ha, not_false_eq_true, if_pos, htail,
        ih as.length rfl]
      rw [List.filter_cons]
      simp [ha]

end JASS

/-
  The claims.
-/

namespace JASS

/-- Claim C1: for the SIMD Elias-gamma variable-byte codec and every legal sequence
`src` of 32-bit unsigned integers with at most 10^6 elements, decoding the stream
produced by `encode` into an adequately padded output buffer reproduces exactly
`src`: the decoder writes whole 16-integer slices, so the buffer receives `src`
followed by zero padding, and its first `src.length` entries are `src`. -/
theorem C1_codec_roundtrip (src : List Nat) (hlegal : ∀ x ∈ src, x < 2 ^ 32)
    (hn : src.length ≤ 1000000) :
    (decode_frames (encode_frames src)).take src.length = src := by
  obtain ⟨m, hm⟩ := encode_decode_aux src.length src (le_refl _) hlegal
  rw [hm, List.take_left' rfl]

theorem C1_codec_roundtrip_witness :
    (∀ x ∈ [1, 2, 3], x < 2 ^ 32) ∧ ([1, 2, 3] : List Nat).length ≤ 1000000 ∧
    (decode_frames (encode_frames [1, 2, 3])).take ([1, 2, 3] : List Nat).length
      = [1, 2, 3] :=
  ⟨by decide, by decide, C1_codec_roundtrip [1, 2, 3] (by decide) (by decide)⟩

/-- Claim C2, counterexample: pushing the same document id 10^6 times into a fresh
accumulator leaves that document's term frequency equal to 0xFFFF, not 0xFFFE: the
source increments the frequency whenever it is still at most 0xFFFE (lines 600-602),
so 0xFFFE is incremented one further time. -/
theorem C2_counterexample :
    (index_postings.push_repeat index_postings.init 1 100 1000000).map
      index_postings.term_frequencies = some [0xFFFF]
    ∧ (0xFFFF : Nat) ≠ 0xFFFE := by
  rw [push_repeat_one 1000000 (by norm_num)]
  norm_num

/-- Claim C2 (amended): the stored term frequency saturates at 0xFFFF, not 0xFFFE:
the guard `if (frequency <= 0xFFFE) frequency++` increments 0xFFFE to 0xFFFF and
then stops, so pushing the same document id any number `n ≥ 0xFFFF` of times
(in particular 10^6 times) leaves that document's tf equal to 0xFFFF. -/
theorem C2_tf_saturates (n : Nat) (h : 65535 ≤ n) :
    (index_postings.push_repeat index_postings.init 1 100 n).map
      index_postings.term_frequencies = some [0xFFFF] := by
  have hmin : min n 65535 = 65535 := by omega
  rw [push_repeat_one n (by omega)]
  simp [hmin]

theorem C2_tf_saturates_witness :
    65535 ≤ 1000000 ∧
    (index_postings.push_repeat index_postings.init 1 100 1000000).map
      index_postings.term_frequencies = some [0xFFFF] :=
  ⟨by norm_num, C2_tf_saturates 1000000 (by norm_num)⟩

/-- Claim C3, evaluation at the failing input: when pass A observed only equal scores
(here the two-posting corpus with score 5 for both), `largest_rsv - smallest_rsv = 0`
and the pass B impact computation divides zero by zero for every posting — in the
source this is an IEEE 0.0/0.0 (NaN) whose integer cast is undefined, not the
`smallest_impact` the claim requires; the checked division of the model returns
`none` for both postings. -/
theorem C3_range_zero_divides :
    (passA [(5 : Rat), 5]).2 - (passA [(5 : Rat), 5]).1 = 0
    ∧ passB (passA [(5 : Rat), 5]).1 (passA [(5 : Rat), 5]).2 [(5 : Rat), 5]
      = [none, none] := by
  have h : passA [(5 : Rat), 5] = (5, 5) := by
    rw [passA]
    norm_num [double_max, double_min]
  rw [h]
  constructor
  · norm_num
  · rw [passB]
    have h2 : quantize_impact 5 5 5 = none := by
      rw [quantize_impact, if_pos (by norm_num)]
    simp [h2]

/-- Claim C4 (amended): after pass A over any non-empty list of observed scores,
`smallest_rsv ≤ largest_rsv`; and, provided the two bounds differ (so that pass B's
division is defined — with all-equal scores the source divides zero by zero, see the
counterexample), every emitted impact is `some v` with
`smallest_impact ≤ v ≤ largest_impact`. -/
theorem C4_quantizer_bounds (scores : List Rat) (hne : scores ≠ []) :
    (passA scores).1 ≤ (passA scores).2
    ∧ ((passA scores).2 ≠ (passA scores).1 →
        ∀ o ∈ passB (passA scores).1 (passA scores).2 scores,
          ∃ v, o = some v ∧ smallest_impact ≤ v ∧ v ≤ largest_impact) := by
  obtain ⟨x0, hx0⟩ : ∃ x, x ∈ scores := by
    cases scores with
    | nil => exact absurd rfl hne
    | cons a l => exact ⟨a, by simp⟩
  have hspec := passA_fold_spec scores double_max double_min
  have hx0b := hspec.2.2 x0 hx0
  have hle : (passA scores).1 ≤ (passA scores).2 := le_trans hx0b.1 hx0b.2
  refine ⟨hle, ?_⟩
  intro hdiff o ho
  obtain ⟨x, hx, rfl⟩ := List.mem_map.mp ho
  have hxb := hspec.2.2 x hx
  have hlt : (passA scores).1 < (passA scores).2 :=
    lt_of_le_of_ne hle (Ne.symm hdiff)
  have hrange : (passA scores).2 - (passA scores).1 ≠ 0 :=
    sub_ne_zero.mpr hdiff
  rw [quantize_impact, if_neg hrange]
  refine ⟨_, rfl, by omega, ?_⟩
  have hratio0 : 0 ≤ (x - (passA scores).1) / ((passA scores).2 - (passA scores).1) :=
    div_nonneg (sub_nonneg.mpr hxb.1) (le_of_lt (sub_pos.mpr hlt))
  have hratio1 : (x - (passA scores).1) / ((passA scores).2 - (passA scores).1) ≤ 1 :=
    (div_le_one (sub_pos.mpr hlt)).mpr (sub_le_sub_right hxb.2 _)
  have hq0 : 0 ≤ (x - (passA scores).1) / ((passA scores).2 - (passA scores).1)
      * impact_range := by
    apply mul_nonneg hratio0
    rw [impact_range]
    norm_num
  have hq254 : (x - (passA scores).1) / ((passA scores).2 - (passA scores).1)
      * impact_range ≤ 254 := by
    calc (x - (passA scores).1) / ((passA scores).2 - (passA scores).1) * impact_range
        ≤ 1 * impact_range := by
          apply mul_le_mul_of_nonneg_right hratio1
          rw [impact_range]
          norm_num
      _ = 254 := by rw [impact_range]; norm_num
  have htr : rat_trunc ((x - (passA scores).1) / ((passA scores).2 - (passA scores).1)
      * impact_range) ≤ 254 := by
    rw [rat_trunc_eq_floor _ hq0]
    calc ⌊(x - (passA scores).1) / ((passA scores).2 - (passA scores).1)
          * impact_range⌋ ≤ ⌊(254 : Rat)⌋ := Int.floor_le_floor hq254
      _ = 254 := by norm_num
  have : (rat_trunc ((x - (passA scores).1) / ((passA scores).2 - (passA scores).1)
      * impact_range)).toNat ≤ 254 := by omega
  rw [smallest_impact, largest_impact] at *
  omega

theorem C4_quantizer_bounds_witness :
    ([(3 : Rat), 7] ≠ []) ∧
    ((passA [(3 : Rat), 7]).1 ≤ (passA [(3 : Rat), 7]).2
    ∧ ((passA [(3 : Rat), 7]).2 ≠ (passA [(3 : Rat), 7]).1 →
        ∀ o ∈ passB (passA [(3 : Rat), 7]).1 (passA [(3 : Rat), 7]).2 [(3 : Rat), 7],
          ∃ v, o = some v ∧ smallest_impact ≤ v ∧ v ≤ largest_impact)) :=
  ⟨by simp, C4_quantizer_bounds [(3 : Rat), 7] (by simp)⟩

/-- Claim C4, counterexample to the claim as stated: over the scored corpus with a
single observed score (5), pass A yields equal bounds, and pass B's emitted "impact"
for the posting is not a value in `[smallest_impact, largest_impact]` — the source
divides zero by zero (modelled by `none`). -/
theorem C4_counterexample :
    ¬ (∀ o ∈ passB (passA [(5 : Rat)]).1 (passA [(5 : Rat)]).2 [(5 : Rat)],
        ∃ v, o = some v ∧ smallest_impact ≤ v ∧ v ≤ largest_impact) := by
  intro hall
  have h : passA [(5 : Rat)] = (5, 5) := by
    rw [passA]
    norm_num [double_max, double_min]
  have hmem : (none : Option Nat)
      ∈ passB (passA [(5 : Rat)]).1 (passA [(5 : Rat)]).2 [(5 : Rat)] := by
    rw [h, passB]
    have h2 : quantize_impact 5 5 5 = none := by
      rw [quantize_impact, if_pos (by norm_num)]
    simp [h2]
  obtain ⟨v, hv, _⟩ := hall none hmem
  exact Option.noConfusion hv

/-- Claim C5: `compute_selector` and the decoder's width extraction (iterated
find-first-set-bit and right-shift on the selector word) are mutual inverses: for any
width sequence with `1 ≤ wᵢ ≤ 32` and sum at most 32 (the C++ caller passes the list
terminated by a 0 sentinel; the Lean model takes the widths in front of the
sentinel), extracting widths from the computed selector yields exactly the
sequence. -/
theorem C5_selector_inverse (w : List Nat) (h1 : ∀ u ∈ w, 1 ≤ u ∧ u ≤ 32)
    (h2 : w.sum ≤ 32) :
    extract_widths (compute_selector w) = w :=
  extract_widths_compute_selector w (fun u hu => (h1 u hu).1) h2

theorem C5_selector_inverse_witness :
    (∀ u ∈ [3, 2, 5, 4], 1 ≤ u ∧ u ≤ 32) ∧ ([3, 2, 5, 4] : List Nat).sum ≤ 32 ∧
    extract_widths (compute_selector [3, 2, 5, 4]) = [3, 2, 5, 4] :=
  ⟨by decide, by decide, C5_selector_inverse [3, 2, 5, 4] (by decide) (by decide)⟩

/-- Claim C6, counterexample to the claim as stated: `encode` does not return 0
"exactly when the destination buffer capacity is insufficient to hold the encoded
output".  Encoding the single integer 1 produces exactly 68 bytes (one frame), yet
with a destination buffer of exactly 68 bytes `encode` returns 0, because its
overflow check (line 202) demands room for `WORDS + 1 + 1` words — 4 bytes more
than the frame it writes. -/
theorem C6_counterexample :
    encode 68 [1] = 0 ∧ 4 * (encode_frames [1]).length = 68 := by
  constructor
  · rw [encode, encode_loop]
    norm_num
  · have h1 : encode_slices [1] 32 0 (List.replicate 16 0)
        = ([32], pack_slice (chunk16 [1]) 0 (List.replicate 16 0), [], true) := by
      rw [encode_slices]
      norm_num [slice_width, ceiling_log2, Nat.log2]
    rw [encode_frames, h1]
    simp [pack_slice_length, chunk16_length]

/-- Claim C6 (amended): `encode` returns 0 exactly when the destination buffer is
smaller than the encoded output plus 4 bytes of headroom (the overflow check at line
202 reserves `WORDS + 2` words per frame though only `WORDS + 1` are written);
otherwise it returns the number of bytes written — 68 per frame — which never
exceeds `encoded_buffer_length`.  A zero return writes no complete stream and leaves
recovery to the caller. -/
theorem C6_encode_overflow (len : Nat) (array : List Nat)
    (hlegal : ∀ x ∈ array, x < 2 ^ 32) :
    (encode len array = 0 ↔ len < 4 * (encode_frames array).length + 4)
    ∧ (encode len array ≠ 0 →
        encode len array = 4 * (encode_frames array).length
        ∧ 4 * (encode_frames array).length ≤ len) := by
  obtain ⟨h17, hloop⟩ := encode_loop_spec array.length array (le_refl _) hlegal
  have h := hloop len 0
  rw [encode, h]
  by_cases hc : 4 * 0 + 4 * (encode_frames array).length + 4 ≤ len
  · rw [if_pos hc]
    exact ⟨by omega, fun hne => ⟨by omega, by omega⟩⟩
  · rw [if_neg hc]
    exact ⟨by omega, fun hne => absurd rfl hne⟩

theorem C6_encode_overflow_witness :
    (∀ x ∈ [1], x < 2 ^ 32) ∧
    ((encode 200 [1] = 0 ↔ 200 < 4 * (encode_frames [1]).length + 4)
    ∧ (encode 200 [1] ≠ 0 →
        encode 200 [1] = 4 * (encode_frames [1]).length
        ∧ 4 * (encode_frames [1]).length ≤ 200)) :=
  ⟨by decide, C6_encode_overflow 200 [1] (by decide)⟩

/-- Claim C7: pushing (1,100), (1,101), (2,102), (2,103) in that order into a fresh
accumulator and rendering it yields exactly the string
"<1,2,100,101><2,2,102,103>". -/
theorem C7_text_render :
    ((((index_postings.init.push_back 1 100).bind
        (fun s => s.push_back 1 101)).bind
        (fun s => s.push_back 2 102)).bind
        (fun s => s.push_back 2 103)).map index_postings.text_render
      = some "<1,2,100,101><2,2,102,103>" := by
  rfl

/-- Claim C8: pointer_box comparison operators order boxes by the pointed-to value,
breaking ties on equal pointees by pointer (address) order: for the array [6, 3, 6]
with a, b, c the boxed pointers to indices 0, 1, 2, the strict order is b < a < c,
and `compare` returns negative / zero / positive consistently with that order. -/
theorem C8_pointer_box_order :
    pointer_box.lt [6, 3, 6] 1 0 = true
    ∧ pointer_box.lt [6, 3, 6] 0 2 = true
    ∧ pointer_box.lt [6, 3, 6] 0 1 = false
    ∧ pointer_box.lt [6, 3, 6] 2 0 = false
    ∧ pointer_box.compare [6, 3, 6] 1 0 < 0
    ∧ pointer_box.compare [6, 3, 6] 0 2 < 0
    ∧ pointer_box.compare [6, 3, 6] 0 1 > 0
    ∧ pointer_box.compare [6, 3, 6] 2 0 > 0
    ∧ pointer_box.compare [6, 3, 6] 0 0 = 0 := by
  decide

/-- Claim C9: for every 8-lane group of docids delivered to the printer's vectorized
`push_back` (with the segment's impact fixed by `set_score`), exactly the lanes
holding a non-zero docid are emitted as (doc, impact) pairs, in lane order; zero
docids (padding slots) produce no output. -/
theorem C9_printer_filters (impact : Nat) (document_ids : List Nat)
    (h : document_ids.length = 8) :
    printer.push_back impact document_ids
      = (document_ids.filter (fun d => d ≠ 0)).map (fun d => (d, impact)) :=
  filterMap_range_getD impact document_ids 8 h

theorem C9_printer_filters_witness :
    ([3, 0, 5, 0, 0, 0, 0, 9] : List Nat).length = 8 ∧
    printer.push_back 42 [3, 0, 5, 0, 0, 0, 0, 9]
      = (([3, 0, 5, 0, 0, 0, 0, 9] : List Nat).filter (fun d => d ≠ 0)).map
          (fun d => (d, 42)) :=
  ⟨rfl, C9_printer_filters 42 [3, 0, 5, 0, 0, 0, 0, 9] rfl⟩

/-- Claim C10: `push_back` appends a new entry to `document_ids` (with tf 1) exactly
when the document id differs from `highest_document` (initialized to 0 at
construction); consequently `push_back 0 p` on a fresh accumulator takes the
repeated-document branch and calls `back()` on the empty `term_frequencies` array
(undefined behaviour, modelled by `none`), so the docid ≥ 1 precondition is required
for the call to be well defined. -/
theorem C10_push_back_well_defined :
    index_postings.init.highest_document = 0
    ∧ (∀ (s : index_postings) (d p : Nat) (t : index_postings),
        index_postings.push_back s d p = some t →
        (d ≠ s.highest_document →
          t.document_ids = s.document_ids ++ [d % 2 ^ 32]
          ∧ t.term_frequencies = s.term_frequencies ++ [1])
        ∧ (d = s.highest_document → t.document_ids = s.document_ids))
    ∧ (∀ p : Nat, index_postings.push_back index_postings.init 0 p = none)
    ∧ (∀ d p : Nat, 1 ≤ d →
        (index_postings.push_back index_postings.init d p).isSome = true) := by
  refine ⟨rfl, ?_, ?_, ?_⟩
  · intro s d p t ht
    constructor
    · intro hne
      rw [index_postings.push_back, if_neg hne] at ht
      obtain rfl : _ = t := Option.some_injective _ ht
      exact ⟨rfl, rfl⟩
    · intro heq
      rw [index_postings.push_back, if_pos heq] at ht
      cases hg : s.term_frequencies.getLast? with
      | none => rw [hg] at ht; exact Option.noConfusion ht
      | some f =>
        rw [hg] at ht
        obtain rfl : _ = t := Option.some_injective _ ht
        rfl
  · intro p
    rfl
  · intro d p hd
    rw [index_postings.push_back,
      if_neg (by simpa [index_postings.init] using (by omega : ¬ d = 0))]
    rfl

theorem C10_push_back_well_defined_witness :
    ((3 : Nat) ≠ index_postings.init.highest_document →
      ∀ t : index_postings, index_postings.push_back index_postings.init 3 7 = some t →
        t.document_ids = index_postings.init.document_ids ++ [3 % 2 ^ 32]
        ∧ t.term_frequencies = index_postings.init.term_frequencies ++ [1])
    ∧ index_postings.push_back index_postings.init 0 7 = none
    ∧ (index_postings.push_back index_postings.init 3 7).isSome = true :=
  ⟨fun hne t ht => (C10_push_back_well_defined.2.1 index_postings.init 3 7 t ht).1 hne,
   C10_push_back_well_defined.2.2.1 7,
   C10_push_back_well_defined.2.2.2 3 7 (by decide)⟩

end JASS
